import Mathlib

set_option maxRecDepth 100000
set_option synthInstance.maxSize 65536
set_option synthInstance.maxHeartbeats 16000000
set_option maxHeartbeats 16000000

/-!
Verification of the DimTypes rational-exponent / unit encoding engine.

The repository carries two generations of the encoding header:

* `Include/DimTypes/Bits/Encodings.hpp` — the current engine, configured
  with `NDims = 7`, `PBits = 9`, `PMod = 509`, whose `MaxHeight` is derived
  by the `FindMaxHeight` collision search.  It is embedded below in
  namespace `Zp509`.
* `Include/Bits/Encodings.hpp` — the older engine, configured with
  `NDims = 9`, `PBits = 7`, `PMod = 127` and a hardcoded `MaxHeight = 15`,
  whose decoder (`Numer`/`Denom`) searches heights without an upper bound.
  It is embedded below in namespace `Zp127`.
* `Include/DimTypes/Bits/FracPower.hpp` — the rational-power reducer
  (`FracPower` over the `NatPower`/`IntPower`/`SqRtPower`/`CbRtPower`
  template chain), embedded in namespace `Frac` over an arbitrary linearly
  ordered field with the root/power primitives passed as parameters.

Modelling conventions, used consistently below:

* C++ `unsigned long` values are modelled as `Nat`.  The bit-field
  operations of the source (`GetFld`, `PutFld`, shifts, masks) never
  overflow 64 bits for field indices below `NDims`, so no wrap-around is
  applied except in `SubExp`, where the C++ source computes
  `(PMod + e) - f` in unsigned 64-bit arithmetic and the subtraction can
  wrap when a (non-well-formed) field `f` exceeds `PMod + e`; there the
  wrap is modelled exactly as `(PMod + e + (2^64 - f)) % 2^64`.
* C++ `int` values are modelled as `Int`; the C++ `%` and `/` on `int`
  truncate towards zero, which is `Int.tmod` / `Int.tdiv`.
* A C++ `throw` inside a `constexpr` evaluation (which aborts compilation)
  is modelled as the `none` of an `Option` result; `some` is a normally
  returned value.
* C++ loops and recursive `constexpr` functions whose termination is not
  structural are modelled with an explicit fuel argument; the fuel chosen
  for each function provably dominates the number of iterations the C++
  loop can perform, and running out of fuel yields `none`.  The theorems
  below that establish `isSome` results show in particular that the fuel
  is never exhausted on the stated inputs.
-/

namespace DimTypes

namespace Zp509

/-- Modulus of the Zp encoding: the largest prime below `2 ^ PBits`
(`constexpr unsigned long PMod = 509`). -/
def PMod : Nat := 509

/-- The modulus as a signed value (`constexpr int IPMod = int(PMod)`). -/
def IPMod : Int := 509

/-- Number of packed dimensions (`constexpr unsigned NDims = 7`). -/
def NDims : Nat := 7

/-- Width in bits of one packed field (`constexpr unsigned PBits = 9`). -/
def PBits : Nat := 9

/-- Mask of one field (`constexpr unsigned long PMask = (1UL << PBits) - 1`). -/
def PMask : Nat := (1 <<< PBits) - 1

/-- Exponent vector of a fundamental dimension: exponent 1 in field `dim`
(`DimExp(dim) = 1UL << (dim * PBits)`). -/
def DimExp (dim : Nat) : Nat := 1 <<< (dim * PBits)

/-- `GCD(m, n)`: the source normalises both arguments to non-negative values
and runs the Euclidean `GCDrec`; that is `Nat.gcd` on the absolute values. -/
def GCD (m n : Int) : Nat := Nat.gcd m.natAbs n.natAbs

/-- `Normalise(x)`: residue of a signed value modulo `PMod`, computed as the
source does with the truncating `%` of C++ (`x % IPMod`, plus `IPMod` when
`x` is negative), then converted to unsigned. -/
def Normalise (x : Int) : Nat :=
  (if 0 ≤ x then x.tmod IPMod else x.tmod IPMod + IPMod).toNat

/-- Body of the extended-Euclid `while` loop of `InverseModP`.  State
`(x, a, b, y, c, d)` as in the source; `x` and `y` stay non-negative (the
source checks `0 <= x && x < y` and throws a logic error otherwise, modelled
by the `r < x` test), so they are carried as `Nat`.  One unit of fuel per
iteration; the initial fuel `PMod` dominates the iteration count since `x`
strictly decreases from a value below `PMod`. -/
def InvLoop (fuel : Nat) (x : Nat) (a b : Int) (y : Nat) (c d : Int) :
    Option Nat :=
  match fuel with
  | 0 => none
  | fuel + 1 =>
    if x = 0 then some (Normalise c)
    else if y % x < x then
      InvLoop fuel (y % x) (c - (↑(y / x) : Int) * a) (d - (↑(y / x) : Int) * b)
        x a b
    else none

/-- `InverseModP(n)`: modular inverse of `n` modulo `PMod` by extended
Euclid.  Throws (`none`) when `n % IPMod == 0`; the initial guard
`0 <= x && x < y` of the source is the `x < PMod` test. -/
def InverseModP (n : Int) : Option Nat :=
  if n.tmod IPMod = 0 then none
  else if Normalise n < PMod then InvLoop PMod (Normalise n) 1 0 PMod 0 1
  else none

/-- `GetFld(From, dim)`: the `PBits`-wide field of `From` at position
`dim * PBits`. -/
def GetFld (From : Nat) (dim : Nat) : Nat := From >>> (dim * PBits) &&& PMask

/-- `PutFld(From, dim)`: the low `PBits` bits of `From` placed at position
`dim * PBits`. -/
def PutFld (From : Nat) (dim : Nat) : Nat := (From &&& PMask) <<< (dim * PBits)

/-- The field-accumulation loop shared by the monomial operations of the
source: `unsigned long res = 0; for (dim = 0; dim < n; ++dim)
res |= PutFld(g(dim), dim); return res`. -/
def FldLoopN (g : Nat → Nat) (n : Nat) : Nat :=
  (List.range n).foldl (fun res dim => res ||| PutFld (g dim) dim) 0

/-- `AddExp(E, F)`: field-wise addition modulo `PMod`, with the source's
short-circuits for a zero operand. -/
def AddExp (E F : Nat) : Nat :=
  if E = 0 then F
  else if F = 0 then E
  else FldLoopN (fun dim => (GetFld E dim + GetFld F dim) % PMod) NDims

/-- Wrap-around modulus of the C++ 64-bit `unsigned long` arithmetic. -/
def UWrap : Nat := 2 ^ 64

/-- `SubExp(E, F)`: field-wise subtraction modulo `PMod`.  The source
computes `(PMod + GetFld(E,dim)) - GetFld(F,dim)` in unsigned 64-bit
arithmetic; the (normally unreachable) wrap of that subtraction is modelled
exactly by adding `2^64 - f` and reducing modulo `2^64`. -/
def SubExp (E F : Nat) : Nat :=
  if F = 0 then E
  else
    FldLoopN
      (fun dim =>
        (PMod + GetFld E dim + (UWrap - GetFld F dim)) % UWrap % PMod) NDims

/-- `MultExp(E, m)`: field-wise multiplication by `Normalise m` modulo
`PMod`, with the source's short-circuit for `m == 1`. -/
def MultExp (E : Nat) (m : Int) : Nat :=
  if m = 1 then E
  else FldLoopN (fun dim => GetFld E dim * Normalise m % PMod) NDims

/-- The C++ narrowing conversion `int(n)` of the `unsigned` argument of
`DivExp` to the 32-bit `int`: reduce modulo `2^32` and interpret the result
in two's complement (values of `2^31` and above wrap to negatives). -/
def IntOfUInt (n : Nat) : Int :=
  if n % 2 ^ 32 < 2 ^ 31 then ((n % 2 ^ 32 : Nat) : Int)
  else ((n % 2 ^ 32 : Nat) : Int) - 2 ^ 32

/-- `DivExp(E, n)`: field-wise multiplication by the inverse of `n` modulo
`PMod`.  Throws (`none`) for `n == 0`, short-circuits for `n == 1`, and
propagates the throw of `InverseModP(int(n))` — including the narrowing
conversion of the `unsigned` argument `n` to `int`, which wraps for
`n ≥ 2^31` (the source calls `InverseModP(int(n))` inside the loop body;
the call is deterministic, so it is hoisted here). -/
def DivExp (E : Nat) (n : Nat) : Option Nat :=
  if n = 0 then none
  else if n = 1 then some E
  else
    match InverseModP (IntOfUInt n) with
    | none => none
    | some inv => some (FldLoopN (fun dim => GetFld E dim * inv % PMod) NDims)

/-- The nested loops of `FindMaxHeight`, flattened: outer loop over
`height = 2, 3, …` while `height < IPMod`, inner loop over
`denom = 1 … height-1`.  The `taken` array of `IPMod` booleans is a bit
set.  Returns `some (height - 1)` at the first residue clash,
`some (PMod - 1)` if the loops finish (the source's unreachable fall-through
return), `none` for a source `throw` or fuel exhaustion.  As in the source,
`InverseModP(denom)` is computed before the irreducibility test. -/
def FMHRec (fuel : Nat) (taken : Nat) (height denom : Nat) : Option Nat :=
  match fuel with
  | 0 => none
  | fuel + 1 =>
    if PMod ≤ height then some (PMod - 1)
    else if height ≤ denom then FMHRec fuel taken (height + 1) 1
    else
      match InverseModP (denom : Int) with
      | none => none
      | some invDenom =>
        if GCD ((height - denom : Nat) : Int) (denom : Int) ≠ 1 then
          FMHRec fuel taken height (denom + 1)
        else if ¬(0 < height - denom ∧ 0 < PMod - (height - denom)) then none
        else if taken.testBit ((height - denom) * invDenom % PMod) ||
            taken.testBit ((PMod - (height - denom)) * invDenom % PMod) then
          some (height - 1)
        else
          FMHRec fuel
            (taken ||| 1 <<< ((height - denom) * invDenom % PMod) |||
              1 <<< ((PMod - (height - denom)) * invDenom % PMod))
            height (denom + 1)

/-- `FindMaxHeight()`: the one-time collision search.  The fuel
`2 * PMod * PMod` dominates the total number of loop iterations
(at most `PMod * (PMod + 1) / 2` pairs plus one height step each). -/
def FindMaxHeight : Option Nat := FMHRec (2 * PMod * PMod) 0 2 1

/-- `constexpr unsigned MaxHeight = FindMaxHeight()`.  In the source a
`throw` inside `FindMaxHeight` would abort compilation; the search succeeds
(see `Zp509_FindMaxHeight_eq` below), so the `getD` default is never used. -/
def MaxHeight : Nat := FindMaxHeight.getD 0

/-- The nested search loops of `GetNumerAndDenom`, flattened: outer loop
over `height = 2, 3, …` while `height < int(MaxHeight)`, inner loop over
`denom = 1 … height-1`.  `some (some p)` is a returned pair,
`some none` is the source's exhaustion `throw` (`Rep Not Matched`), and
`none` is a logic-error `throw` or fuel exhaustion. -/
def GNDRec (fuel : Nat) (rep : Nat) (height denom : Nat) :
    Option (Option (Int × Nat)) :=
  match fuel with
  | 0 => none
  | fuel + 1 =>
    if MaxHeight ≤ height then some none
    else if height ≤ denom then GNDRec fuel rep (height + 1) 1
    else
      match InverseModP (denom : Int) with
      | none => none
      | some invDenom =>
        if ¬(0 < height - denom ∧ 0 < PMod - (height - denom)) then none
        else if (height - denom) * invDenom % PMod = rep then
          some (some (((height - denom : Nat) : Int), denom))
        else if (PMod - (height - denom)) * invDenom % PMod = rep then
          some (some (-((height - denom : Nat) : Int), denom))
        else GNDRec fuel rep height (denom + 1)

/-- Fuel for the decode search: dominates the iteration count of the
height/denominator loops, which is below `MaxHeight * MaxHeight`. -/
def DecodeFuel : Nat := 2 * PMod * PMod

/-- `GetNumerAndDenom(rep)`: `(0, 1)` for the zero residue, otherwise the
bounded height-major search; any `throw` of the source becomes `none`. -/
def GetNumerAndDenom (rep : Nat) : Option (Int × Nat) :=
  if rep = 0 then some (0, 1)
  else (GNDRec DecodeFuel rep 2 1).join

/-- The encoding map of the spec, built from the source operations: the
rational `m / n` (with `n` invertible) is represented by the residue
`Normalise(m) * InverseModP(n) mod PMod`; `0 / 1` is represented by 0. -/
def EncodeFrac (m : Int) (n : Nat) : Option Nat :=
  (InverseModP (n : Int)).map fun inv => Normalise m * inv % PMod

/-- `SetUnit(U, dim, unit)`: clear the field of `U` at `dim` and set the low
`PBits` bits of `unit` there.  The C++ `U & ~(PMask << (dim*PBits))` is a
64-bit complement; since the shifted mask's bits are among the 64 ones, the
complement is the subtraction from `2^64 - 1`. -/
def SetUnit (U : Nat) (dim : Nat) (unit : Nat) : Nat :=
  U &&& (UWrap - 1 - PMask <<< (dim * PBits)) |||
    (unit &&& PMask) <<< (dim * PBits)

/-- `MkUnit(dim, unit) = SetUnit(0, dim, unit)`. -/
def MkUnit (dim : Nat) (unit : Nat) : Nat := SetUnit 0 dim unit

/-- Per-dimension unit unification (the nested conditional in the loop body
of `UnifyUnits`): a dimension absent from both operands gets unit 0; a
dimension present on one side gets that side's unit; a dimension present on
both sides requires equal units, else the source throws (`none`). -/
def UnifyFld (e f u v : Nat) : Option Nat :=
  if e = 0 then some (if f = 0 then 0 else v)
  else if f = 0 then some u
  else if u = v then some u
  else none

/-- The accumulation loop of `UnifyUnits`, with the per-dimension result
supplied by `f` and a source `throw` (a `none` from `f`) aborting the
loop. -/
def UFoldN (f : Nat → Option Nat) (n : Nat) : Option Nat :=
  (List.range n).foldl
    (fun acc dim =>
      acc.bind fun res => (f dim).map fun unified => res ||| PutFld unified dim)
    (some 0)

/-- `UnifyUnits(E, F, U, V)`: unifies the unit vectors `U`, `V` of the `*` or
`/` operands with exponent vectors `E`, `F`. -/
def UnifyUnits (E F U V : Nat) : Option Nat :=
  UFoldN
    (fun dim =>
      UnifyFld (GetFld E dim) (GetFld F dim) (GetFld U dim) (GetFld V dim))
    NDims

/-- `CleanUpUnits(E, U)`: per dimension, keep the unit field of `U` where the
exponent field of `E` is non-zero, else reset it to 0. -/
def CleanUpUnits (E U : Nat) : Nat :=
  FldLoopN (fun dim => if GetFld E dim ≠ 0 then GetFld U dim else 0) NDims

end Zp509

namespace Zp127

/-- Modulus of the older Zp encoding (`constexpr unsigned long PMod = 127`). -/
def PMod : Nat := 127

/-- The modulus as a signed value (`constexpr int IPMod = int(PMod)`). -/
def IPMod : Int := 127

/-- The hardcoded decoder bound of the older header
(`constexpr int MaxHeight = 15`). -/
def MaxHeight : Int := 15

/-- `Normalise(x)` of the older header: residue modulo `PMod` as a signed
value, using the truncating `%` of C++. -/
def Normalise (x : Int) : Int :=
  if 0 ≤ x then x.tmod IPMod else x.tmod IPMod + IPMod

/-- The recursive extended-Euclid `InverseModP(x, a, b, y, c, d)` of the
older header, with fuel (the recursion on `x` is not structural).  All six
state components are C++ `int`s; `y / x` and `y % x` are the truncating
division and remainder. -/
def InverseModPRec (fuel : Nat) (x a b y c d : Int) : Option Int :=
  match fuel with
  | 0 => none
  | fuel + 1 =>
    if x = 0 then some (Normalise c)
    else
      InverseModPRec fuel (y.tmod x) (c - y.tdiv x * a) (d - y.tdiv x * b) x a
        b

/-- `InverseModP(n) = InverseModP(Normalise(n), 1, 0, IPMod, 0, 1)`.  The
fuel `127` dominates the Euclid iteration count for the starting state. -/
def InverseModP (n : Int) : Option Int :=
  InverseModPRec 127 (Normalise n) 1 0 IPMod 0 1

/-- `NumerRec(rep, height, denom, invDenom)`: the unbounded height-major,
denominator-minor, positive-then-negative candidate search of the older
decoder, with fuel (the recursion has no structural bound; the fuel chosen
at the call site reflects the claim's termination bound). -/
def NumerRec (fuel : Nat) (rep height denom invDenom : Int) : Option Int :=
  match fuel with
  | 0 => none
  | fuel + 1 =>
    if ((height - denom) * invDenom).tmod IPMod = rep then some (height - denom)
    else if ((IPMod - height + denom) * invDenom).tmod IPMod = rep then
      some (denom - height)
    else if denom < height - 1 then
      match InverseModP (denom + 1) with
      | none => none
      | some inv => NumerRec fuel rep height (denom + 1) inv
    else NumerRec fuel rep (height + 1) 1 1

/-- `Numer(rep)`: 0 for the zero residue, else the search from
`height = 2, denom = 1`.  The fuel `(rep + 2)^2` dominates the number of
search states up to and including the candidate `rep / 1` at height
`rep + 1`, which matches (the claim's termination bound). -/
def Numer (rep : Nat) : Option Int :=
  if rep = 0 then some 0
  else NumerRec ((rep + 2) * (rep + 2)) (rep : Int) 2 1 1

/-- `DenomRec(rep, height, denom, invDenom)`: as `NumerRec` but returning
the denominator of the first matching candidate. -/
def DenomRec (fuel : Nat) (rep height denom invDenom : Int) : Option Int :=
  match fuel with
  | 0 => none
  | fuel + 1 =>
    if ((height - denom) * invDenom).tmod IPMod = rep ∨
        ((IPMod - height + denom) * invDenom).tmod IPMod = rep then
      some denom
    else if denom < height - 1 then
      match InverseModP (denom + 1) with
      | none => none
      | some inv => DenomRec fuel rep height (denom + 1) inv
    else DenomRec fuel rep (height + 1) 1 1

/-- `Denom(rep)`: 1 for the zero residue, else the search from
`height = 2, denom = 1`, with the same fuel bound as `Numer`. -/
def Denom (rep : Nat) : Option Int :=
  if rep = 0 then some 1
  else DenomRec ((rep + 2) * (rep + 2)) (rep : Int) 2 1 1

/-- The encoding map of the spec at the older configuration:
`Normalise(m) * InverseModP(n) mod IPMod`. -/
def EncodeFrac (m : Int) (n : Nat) : Option Int :=
  (InverseModP (n : Int)).map fun inv => (Normalise m * inv).tmod IPMod

end Zp127

namespace Frac

/-- `GCD(m, n)` of `FracPower.hpp`: both arguments normalised to
non-negative values, then the Euclidean `GCDrec`; the C++ function returns
`int`. -/
def GCD (m n : Int) : Int := (Nat.gcd m.natAbs n.natAbs : Int)

/-- `NormaliseNumer(m, n)`: the numerator of the reduced fraction, carrying
the sign of `n` over to the numerator.  The division is exact (the gcd
divides `m`), so the truncating C++ division agrees with `Int` division. -/
def NormaliseNumer (m n : Int) : Int :=
  if 0 < n then m / GCD m n else -(m / GCD m n)

/-- `NormaliseDenom(m, n)`: the (non-negative) denominator of the reduced
fraction.  The division is exact, as above. -/
def NormaliseDenom (m n : Int) : Int :=
  (if 0 ≤ n then n else -n) / GCD m n

/-- `NatPower<T, M>::res(base)`: exponentiation by squaring, mirroring the
even/odd template specialisations (`halfPow * halfPow`, resp.
`base * halfPow * halfPow`) and the `M == 0` and `M == 1` base cases. -/
def NatPower {R : Type} [Field R] (M : Nat) (base : R) : R :=
  if M = 0 then 1
  else if M = 1 then base
  else
    let halfPow := NatPower (M / 2) base
    if M % 2 = 1 then base * halfPow * halfPow else halfPow * halfPow
  termination_by M
  decreasing_by exact Nat.div_lt_self (by omega) (by omega)

/-- `IntPower<T, M>::res(base)`: `NatPower` for natural `M`, the reciprocal
of `NatPower` at `-M` for negative `M`. -/
def IntPower {R : Type} [Field R] (M : Int) (base : R) : R :=
  if 0 ≤ M then NatPower M.toNat base else 1 / NatPower (-M).toNat base

/-- `SqRtPower<T, M, N>::res(base)` over an abstract representation type:
`sq` is the `SqRt` primitive and `pw` the generic `std::pow` fallback.  The
template dispatch is: `N` even recurses on `N/2` with `sq base`; `N == 1`
is `IntPower`; odd `N ≥ 3` falls back to `pw base (M / N)`.  `N == 0` is a
compile error in the source (`static_assert`); it is mapped to the junk
value 0 here and is unreachable from `FracPower`. -/
def SqRtPower {R : Type} [Field R] (sq : R → R) (pw : R → R → R) (M : Int)
    (N : Nat) (base : R) : R :=
  if N = 0 then 0
  else if N % 2 = 0 then SqRtPower sq pw M (N / 2) (sq base)
  else if N = 1 then IntPower M base
  else pw base ((M : R) / (N : R))
  termination_by N
  decreasing_by exact Nat.div_lt_self (by omega) (by omega)

/-- `CbRtPower<T, M, N>::res(base)` for a real representation type (the
specialisations that have a `CbRt`): `N` a multiple of 3 recurses on `N/3`
with `cb base`, otherwise the expression is handed to `SqRtPower`.  The
`N ≠ 0` conjunct mirrors the `static_assert (N >= 3)` of the source's
multiple-of-3 specialisation (a compile error for `N == 0`). -/
def CbRtPower {R : Type} [Field R] (sq cb : R → R) (pw : R → R → R) (M : Int)
    (N : Nat) (base : R) : R :=
  if N % 3 = 0 ∧ N ≠ 0 then CbRtPower sq cb pw M (N / 3) (cb base)
  else SqRtPower sq pw M N base
  termination_by N
  decreasing_by exact Nat.div_lt_self (by omega) (by omega)

/-- `FracPower<M, N>(base)`: normalise the fraction `M / N` by its gcd, then
reduce through `CbRtPower`/`SqRtPower`. -/
def FracPower {R : Type} [Field R] (sq cb : R → R) (pw : R → R → R) (M : Int)
    (N : Nat) (base : R) : R :=
  CbRtPower sq cb pw (NormaliseNumer M (N : Int))
    (NormaliseDenom M (N : Int)).toNat base

end Frac

/-! ### Helper lemmas on packed bit fields -/

open Zp509

theorem lor_shiftLeft_eq_add {res w k : Nat} (h : res < 2 ^ k) :
    res ||| w <<< k = res + w * 2 ^ k := by
  apply Nat.eq_of_testBit_eq
  intro i
  rw [Nat.testBit_lor, Nat.testBit_shiftLeft, Nat.add_comm res (w * 2 ^ k),
    Nat.mul_comm w (2 ^ k), Nat.testBit_mul_pow_two_add w h i]
  by_cases hik : i < k
  · have hik' : ¬ i ≥ k := by omega
    simp [hik, hik']
  · have h1 : Nat.testBit res i = false :=
      Nat.testBit_lt_two_pow
        (lt_of_lt_of_le h (Nat.pow_le_pow_right (by norm_num) (by omega)))
    have h2 : i ≥ k := by omega
    simp [hik, h1, h2]

theorem zp509_land_PMask (x : Nat) : x &&& PMask = x % 2 ^ PBits :=
  Nat.and_pow_two_sub_one_eq_mod x PBits

theorem zp509_GetFld_eq (X k : Nat) :
    GetFld X k = X / 2 ^ (k * PBits) % 2 ^ PBits := by
  rw [GetFld, Nat.shiftRight_eq_div_pow, zp509_land_PMask]

theorem zp509_GetFld_zero (k : Nat) : GetFld 0 k = 0 := by
  simp [zp509_GetFld_eq]

theorem zp509_FldLoopN_zero (g : Nat → Nat) : FldLoopN g 0 = 0 := rfl

theorem zp509_FldLoopN_succ (g : Nat → Nat) (n : Nat) :
    FldLoopN g (n + 1) = FldLoopN g n ||| PutFld (g n) n := by
  simp [FldLoopN, List.range_succ]

theorem zp509_FldLoopN_lt (g : Nat → Nat) (n : Nat) :
    FldLoopN g n < 2 ^ (n * PBits) := by
  induction n with
  | zero => simp [zp509_FldLoopN_zero]
  | succ n ih =>
    rw [zp509_FldLoopN_succ, PutFld, lor_shiftLeft_eq_add ih, zp509_land_PMask]
    have hw : g n % 2 ^ PBits < 2 ^ PBits := Nat.mod_lt _ (by positivity)
    have h3 : FldLoopN g n + g n % 2 ^ PBits * 2 ^ (n * PBits) <
        (1 + g n % 2 ^ PBits) * 2 ^ (n * PBits) := by
      rw [Nat.add_mul, Nat.one_mul]
      exact Nat.add_lt_add_right ih _
    have h4 : (1 + g n % 2 ^ PBits) * 2 ^ (n * PBits) ≤
        2 ^ PBits * 2 ^ (n * PBits) :=
      Nat.mul_le_mul_right _ (by omega)
    have h5 : 2 ^ PBits * 2 ^ (n * PBits) = 2 ^ ((n + 1) * PBits) := by
      rw [← Nat.pow_add]
      congr 1
      ring
    omega

theorem zp509_GetFld_FldLoopN (g : Nat → Nat) {n k : Nat} (hk : k < n) :
    GetFld (FldLoopN g n) k = g k % 2 ^ PBits := by
  induction n with
  | zero => omega
  | succ n ih =>
    rw [zp509_FldLoopN_succ, PutFld, lor_shiftLeft_eq_add (zp509_FldLoopN_lt g n),
      zp509_land_PMask]
    rcases Nat.lt_succ_iff_lt_or_eq.mp hk with h | h
    · obtain ⟨d, rfl⟩ : ∃ d, n = k + (d + 1) := ⟨n - k - 1, by omega⟩
      rw [zp509_GetFld_eq]
      have hexp : (k + (d + 1)) * PBits = k * PBits + (PBits + d * PBits) := by
        ring
      rw [hexp, Nat.pow_add]
      have harr : FldLoopN g (k + (d + 1)) +
          g (k + (d + 1)) % 2 ^ PBits * (2 ^ (k * PBits) * 2 ^ (PBits + d * PBits)) =
          FldLoopN g (k + (d + 1)) +
          g (k + (d + 1)) % 2 ^ PBits * 2 ^ (PBits + d * PBits) * 2 ^ (k * PBits) := by
        ring
      rw [harr, Nat.add_mul_div_right _ _ (by positivity)]
      have harr2 : FldLoopN g (k + (d + 1)) / 2 ^ (k * PBits) +
          g (k + (d + 1)) % 2 ^ PBits * 2 ^ (PBits + d * PBits) =
          FldLoopN g (k + (d + 1)) / 2 ^ (k * PBits) +
          g (k + (d + 1)) % 2 ^ PBits * 2 ^ (d * PBits) * 2 ^ PBits := by
        rw [Nat.pow_add]
        ring
      rw [harr2, Nat.add_mul_mod_self_right, ← zp509_GetFld_eq]
      exact ih (by omega)
    · subst h
      rw [zp509_GetFld_eq, Nat.add_mul_div_right _ _ (by positivity),
        Nat.div_eq_of_lt (zp509_FldLoopN_lt g k), Nat.zero_add,
        Nat.mod_mod_of_dvd _ dvd_rfl]

theorem zp509_GetFld_FldLoopN_of_lt {g : Nat → Nat} {n k : Nat} (hk : k < n)
    (hg : g k < 2 ^ PBits) : GetFld (FldLoopN g n) k = g k := by
  rw [zp509_GetFld_FldLoopN g hk, Nat.mod_eq_of_lt hg]

theorem zp509_FldLoopN_congr {g g' : Nat → Nat} {n : Nat}
    (h : ∀ d, d < n → g d = g' d) : FldLoopN g n = FldLoopN g' n := by
  induction n with
  | zero => rfl
  | succ n ih =>
    rw [zp509_FldLoopN_succ, zp509_FldLoopN_succ,
      ih fun d hd => h d (by omega), h n (by omega)]

theorem zp509_FldLoopN_getFld (X : Nat) (n : Nat) :
    FldLoopN (fun d => GetFld X d) n = X % 2 ^ (n * PBits) := by
  induction n with
  | zero => simp [zp509_FldLoopN_zero, Nat.mod_one]
  | succ n ih =>
    rw [zp509_FldLoopN_succ, PutFld, lor_shiftLeft_eq_add (zp509_FldLoopN_lt _ n),
      zp509_land_PMask, ih]
    have hg : GetFld X n % 2 ^ PBits = X / 2 ^ (n * PBits) % 2 ^ PBits := by
      rw [zp509_GetFld_eq, Nat.mod_mod_of_dvd _ dvd_rfl]
    rw [hg, show (n + 1) * PBits = n * PBits + PBits by ring, Nat.pow_add,
      Nat.mod_mul]
    ring

theorem zp509_UFoldN_succ (f : Nat → Option Nat) (n : Nat) :
    UFoldN f (n + 1) =
      (UFoldN f n).bind fun res => (f n).map fun u => res ||| PutFld u n := by
  simp [UFoldN, List.range_succ]

theorem zp509_UFoldN_eq_some {f : Nat → Option Nat} {h : Nat → Nat} {n : Nat}
    (hf : ∀ d, d < n → f d = some (h d)) : UFoldN f n = some (FldLoopN h n) := by
  induction n with
  | zero => rfl
  | succ n ih =>
    rw [zp509_UFoldN_succ, ih fun d hd => hf d (by omega), hf n (by omega),
      zp509_FldLoopN_succ]
    rfl

theorem zp509_UnifyFld_zero_left (f u v : Nat) :
    UnifyFld 0 f u v = some (if f ≠ 0 then v else 0) := by
  by_cases hf : f = 0 <;> simp [UnifyFld, hf]

theorem zp509_UnifyFld_zero_right (e u v : Nat) :
    UnifyFld e 0 u v = some (if e ≠ 0 then u else 0) := by
  by_cases he : e = 0 <;> simp [UnifyFld, he]

theorem zp509_GetFld_lt_mask (X k : Nat) : GetFld X k < 2 ^ PBits := by
  rw [zp509_GetFld_eq]
  exact Nat.mod_lt _ (by positivity)

theorem zp509_FldLoopN_zero_fun (n : Nat) : FldLoopN (fun _ => 0) n = 0 := by
  induction n with
  | zero => rfl
  | succ n ih =>
    rw [zp509_FldLoopN_succ, ih, PutFld]
    simp

/-! ### Claim theorems -/

/-- Claim C3, counterexample: with `E = F = 0` (both operands
dimension-less), `U = 0` and `V = 1`, the source's `UnifyUnits` resets every
unit field to 0 and returns 0, not `V = 1` as the claim states. -/
theorem C3_counterexample_unify :
    UnifyUnits 0 0 0 1 = some 0 ∧ UnifyUnits 0 0 0 1 ≠ some 1 := by decide

/-- Claim C3 (amended): a dimension-less operand defers to the other side's
unit vector only up to cleanup — `UnifyUnits(0,F,U,V)` is `CleanUpUnits(F,V)`
(the fields of `V` on dimensions where `F` is zero are reset to 0), and
symmetrically `UnifyUnits(E,0,U,V)` is `CleanUpUnits(E,U)`; in particular the
results equal `V` resp. `U` exactly when those unit vectors are already
clean. -/
theorem C3_unify_identity_cleaned :
    ∀ E F U V : Nat,
      UnifyUnits 0 F U V = some (CleanUpUnits F V) ∧
      UnifyUnits E 0 U V = some (CleanUpUnits E U) := by
  intro E F U V
  constructor
  · rw [UnifyUnits, CleanUpUnits]
    apply zp509_UFoldN_eq_some
    intro d _
    simp only [zp509_GetFld_zero]
    exact zp509_UnifyFld_zero_left _ _ _
  · rw [UnifyUnits, CleanUpUnits]
    apply zp509_UFoldN_eq_some
    intro d _
    simp only [zp509_GetFld_zero]
    exact zp509_UnifyFld_zero_right _ _ _

/-- Claim C9: `SetUnit` (and `MkUnit`) silently truncate the unit selector
to its low `PBits` bits — the selector is masked with `PMask`, never
rejected. -/
theorem C9_setunit_truncation :
    ∀ U dim unit : Nat, dim < NDims →
      SetUnit U dim unit = SetUnit U dim (unit % 2 ^ PBits) ∧
      MkUnit dim unit = MkUnit dim (unit % 2 ^ PBits) := by
  intro U dim unit _
  have h : unit % 2 ^ PBits &&& PMask = unit &&& PMask := by
    rw [zp509_land_PMask, zp509_land_PMask, Nat.mod_mod_of_dvd _ dvd_rfl]
  constructor
  · rw [SetUnit, SetUnit, h]
  · rw [MkUnit, MkUnit, SetUnit, SetUnit, h]

/-- Claim C9, witness at `U = 5`, `dim = 0`, `unit = 1000`. -/
theorem C9_witness :
    SetUnit 5 0 1000 = SetUnit 5 0 (1000 % 2 ^ PBits) ∧
    MkUnit 0 1000 = MkUnit 0 (1000 % 2 ^ PBits) :=
  C9_setunit_truncation 5 0 1000 (by decide)

set_option maxRecDepth 8000 in
/-- Claim C5: for every `n` in `[1, PMod - 1]`, `InverseModP n` returns a
value `i` with `i < PMod` and `n * i ≡ 1 (mod PMod)`. -/
theorem C5_inverse_modp_law :
    ∀ n : Nat, n < PMod → 1 ≤ n →
      (InverseModP (n : Int)).isSome = true ∧
      (InverseModP (n : Int)).getD PMod < PMod ∧
      n * (InverseModP (n : Int)).getD PMod % PMod = 1 := by decide

/-- Claim C5, witness at `n = 2` (the spec's concrete scenario: the inverse
of 2 is such that `2 * i ≡ 1 (mod PMod)`). -/
theorem C5_witness :
    (InverseModP ((2 : Nat) : Int)).isSome = true ∧
    (InverseModP ((2 : Nat) : Int)).getD PMod < PMod ∧
    2 * (InverseModP ((2 : Nat) : Int)).getD PMod % PMod = 1 :=
  C5_inverse_modp_law 2 (by decide) (by decide)

theorem zp509_two_pow_PBits : (2 : Nat) ^ PBits = 512 := rfl

theorem zp509_mod_PMod_lt (x : Nat) : x % PMod < PMod :=
  Nat.mod_lt _ (by decide)

theorem zp509_mod_PMod_lt_mask (x : Nat) : x % PMod < 2 ^ PBits := by
  have := zp509_mod_PMod_lt x
  rw [zp509_two_pow_PBits]
  revert this
  rw [show PMod = 509 from rfl]
  omega

/-- Claim C4: well-formedness of exponent-vector fields.  `DimExp` produces
fields below `PMod` (for dimension indices below `NDims`), and `AddExp`,
`SubExp`, `MultExp` and `DivExp` (when it returns) map vectors whose
`NDims` fields are below `PMod` to vectors whose fields are below `PMod`. -/
theorem C4_field_range_invariant :
    (∀ dim : Nat, dim < NDims → ∀ d : Nat, d < NDims →
      GetFld (DimExp dim) d < PMod) ∧
    (∀ E F : Nat, (∀ d, d < NDims → GetFld E d < PMod) →
      (∀ d, d < NDims → GetFld F d < PMod) →
      ∀ d, d < NDims → GetFld (AddExp E F) d < PMod) ∧
    (∀ E F : Nat, (∀ d, d < NDims → GetFld E d < PMod) →
      (∀ d, d < NDims → GetFld F d < PMod) →
      ∀ d, d < NDims → GetFld (SubExp E F) d < PMod) ∧
    (∀ (E : Nat) (m : Int), (∀ d, d < NDims → GetFld E d < PMod) →
      ∀ d, d < NDims → GetFld (MultExp E m) d < PMod) ∧
    (∀ E n R : Nat, (∀ d, d < NDims → GetFld E d < PMod) →
      DivExp E n = some R → ∀ d, d < NDims → GetFld R d < PMod) := by
  refine ⟨by decide, ?_, ?_, ?_, ?_⟩
  · intro E F hE hF d hd
    rw [AddExp]
    by_cases hE0 : E = 0
    · simp only [hE0, if_pos rfl]
      exact hF d hd
    · rw [if_neg hE0]
      by_cases hF0 : F = 0
      · rw [if_pos hF0]
        exact hE d hd
      · rw [if_neg hF0, zp509_GetFld_FldLoopN_of_lt hd (zp509_mod_PMod_lt_mask _)]
        exact zp509_mod_PMod_lt _
  · intro E F hE hF d hd
    rw [SubExp]
    by_cases hF0 : F = 0
    · rw [if_pos hF0]
      exact hE d hd
    · rw [if_neg hF0, zp509_GetFld_FldLoopN_of_lt hd (zp509_mod_PMod_lt_mask _)]
      exact zp509_mod_PMod_lt _
  · intro E m hE d hd
    rw [MultExp]
    by_cases hm : m = 1
    · rw [if_pos hm]
      exact hE d hd
    · rw [if_neg hm, zp509_GetFld_FldLoopN_of_lt hd (zp509_mod_PMod_lt_mask _)]
      exact zp509_mod_PMod_lt _
  · intro E n R hE hR d hd
    rw [DivExp] at hR
    by_cases hn0 : n = 0
    · rw [if_pos hn0] at hR
      exact absurd hR (by simp)
    · rw [if_neg hn0] at hR
      by_cases hn1 : n = 1
      · rw [if_pos hn1] at hR
        obtain rfl : E = R := by injection hR
        exact hE d hd
      · rw [if_neg hn1] at hR
        cases hinv : InverseModP (IntOfUInt n) with
        | none => rw [hinv] at hR; exact absurd hR (by simp)
        | some inv =>
          rw [hinv] at hR
          obtain rfl : FldLoopN (fun dim => GetFld E dim * inv % PMod) NDims = R :=
            by injection hR
          rw [zp509_GetFld_FldLoopN_of_lt hd (zp509_mod_PMod_lt_mask _)]
          exact zp509_mod_PMod_lt _

/-- Claim C4, witness: the invariant applied to concrete vectors built from
`DimExp`, including a concrete successful division (`DivExp (DimExp 0) 2`
returns the vector with single field `InverseModP 2 = 255`). -/
theorem C4_witness :
    GetFld (AddExp (DimExp 0) (DimExp 1)) 0 < PMod ∧
    GetFld (SubExp (DimExp 0) (DimExp 1)) 1 < PMod ∧
    GetFld (MultExp (DimExp 0) (-3)) 0 < PMod ∧
    GetFld 255 0 < PMod :=
  ⟨C4_field_range_invariant.2.1 _ _ (by decide) (by decide) 0 (by decide),
   C4_field_range_invariant.2.2.1 _ _ (by decide) (by decide) 1 (by decide),
   C4_field_range_invariant.2.2.2.1 _ (-3) (by decide) 0 (by decide),
   C4_field_range_invariant.2.2.2.2 (DimExp 0) 2 255 (by decide) (by decide) 0
     (by decide)⟩

theorem zp509_subexp_cancel_field {e f : Nat} (he : e < 509) (hf : f < 509) :
    (509 + (e + f) % 509 + (2 ^ 64 - f)) % 2 ^ 64 % 509 = e := by
  omega

theorem zp509_subexp_self_field {f : Nat} (hf : f < 512) :
    (509 + f + (2 ^ 64 - f)) % 2 ^ 64 % 509 = 0 := by
  omega

/-- Claim C6: additive group laws on well-formed exponent vectors.
`AddExp E 0 = E` and commutativity hold for all 64-bit words; the
cancellation `SubExp (AddExp E F) F = E` holds for exponent vectors in the
sense of the data model — words consisting of `NDims` fields (no bits above
`NDims * PBits`) each holding a residue below `PMod` — and needs no height
restriction. -/
theorem C6_additive_laws :
    ∀ E F : Nat,
      AddExp E 0 = E ∧
      AddExp E F = AddExp F E ∧
      ((∀ d, d < NDims → GetFld E d < PMod) →
        (∀ d, d < NDims → GetFld F d < PMod) →
        E < 2 ^ (NDims * PBits) →
        SubExp (AddExp E F) F = E) := by
  intro E F
  refine ⟨?_, ?_, ?_⟩
  · by_cases hE0 : E = 0 <;> simp [AddExp, hE0]
  · by_cases hE0 : E = 0
    · by_cases hF0 : F = 0 <;> simp [AddExp, hE0, hF0]
    · by_cases hF0 : F = 0
      · simp [AddExp, hE0, hF0]
      · rw [AddExp, if_neg hE0, if_neg hF0, AddExp, if_neg hF0, if_neg hE0]
        exact zp509_FldLoopN_congr fun d _ => by rw [Nat.add_comm]
  · intro hE hF hEbound
    by_cases hF0 : F = 0
    · subst hF0
      by_cases hE0 : E = 0 <;> simp [AddExp, SubExp, hE0]
    · by_cases hE0 : E = 0
      · subst hE0
        rw [AddExp, if_pos rfl, SubExp, if_neg hF0]
        have hz :
            FldLoopN
              (fun d => (PMod + GetFld F d + (UWrap - GetFld F d)) % UWrap % PMod)
              NDims =
            FldLoopN (fun _ => 0) NDims := by
          apply zp509_FldLoopN_congr
          intro d hd
          have h1 : GetFld F d < 2 ^ PBits := zp509_GetFld_lt_mask F d
          rw [zp509_two_pow_PBits] at h1
          simp only [PMod, UWrap]
          exact zp509_subexp_self_field h1
        rw [hz, zp509_FldLoopN_zero_fun]
      · rw [AddExp, if_neg hE0, if_neg hF0, SubExp, if_neg hF0]
        have hmain :
            FldLoopN
              (fun d =>
                (PMod +
                    GetFld
                      (FldLoopN
                        (fun dim => (GetFld E dim + GetFld F dim) % PMod) NDims)
                      d +
                  (UWrap - GetFld F d)) % UWrap % PMod) NDims =
            FldLoopN (fun d => GetFld E d) NDims := by
          apply zp509_FldLoopN_congr
          intro d hd
          rw [zp509_GetFld_FldLoopN_of_lt hd (zp509_mod_PMod_lt_mask _)]
          have h1 := hE d hd
          have h2 := hF d hd
          simp only [PMod] at h1 h2
          simp only [PMod, UWrap]
          exact zp509_subexp_cancel_field h1 h2
        rw [hmain, zp509_FldLoopN_getFld, Nat.mod_eq_of_lt hEbound]

/-- Claim C6, witness: the laws at the concrete vectors `DimExp 0` and
`DimExp 1`. -/
theorem C6_witness :
    SubExp (AddExp (DimExp 0) (DimExp 1)) (DimExp 1) = DimExp 0 :=
  (C6_additive_laws (DimExp 0) (DimExp 1)).2.2 (by decide) (by decide)
    (by decide)

theorem int_neg_tmod (a b : Int) : (-a).tmod b = -(a.tmod b) := by
  simp [Int.tmod_def, Int.neg_tdiv, Int.neg_mul, Int.mul_neg]
  ring

theorem zp509_Normalise_range {n : Int} (h : ¬ (509 : Int) ∣ n) :
    1 ≤ Normalise n ∧ Normalise n < 509 := by
  have hne : n.tmod 509 ≠ 0 := fun h0 => h (Int.dvd_of_tmod_eq_zero h0)
  rw [Normalise]
  simp only [show IPMod = (509 : Int) from rfl]
  by_cases hn : 0 ≤ n
  · rw [if_pos hn]
    have h1 : 0 ≤ n.tmod 509 := Int.tmod_nonneg _ hn
    have h2 : n.tmod 509 < 509 := Int.tmod_lt_of_pos n (by norm_num)
    omega
  · rw [if_neg hn]
    have hrw : n.tmod 509 = -((-n).tmod 509) := by
      rw [int_neg_tmod]
      ring
    have h1 : 0 ≤ (-n).tmod 509 := Int.tmod_nonneg _ (by omega)
    have h2 : (-n).tmod 509 < 509 := Int.tmod_lt_of_pos (-n) (by norm_num)
    omega

theorem zp509_invLoop_total :
    ∀ x : Nat, x < PMod → 1 ≤ x →
      (InvLoop PMod x 1 0 PMod 0 1).isSome = true := by
  decide

theorem zp509_InverseModP_none_iff (n : Int) :
    InverseModP n = none ↔ (509 : Int) ∣ n := by
  have hiff : n.tmod IPMod = 0 ↔ (509 : Int) ∣ n := by
    rw [show IPMod = (509 : Int) from rfl]
    exact ⟨fun h => Int.dvd_of_tmod_eq_zero h, fun h => Int.tmod_eq_zero_of_dvd h⟩
  rw [InverseModP]
  by_cases hz : n.tmod IPMod = 0
  · rw [if_pos hz]
    simp [hiff.mp hz]
  · rw [if_neg hz]
    have hdvd : ¬ (509 : Int) ∣ n := fun h => hz (hiff.mpr h)
    obtain ⟨h1, h2⟩ := zp509_Normalise_range hdvd
    have h2' : Normalise n < PMod := h2
    rw [if_pos h2']
    have hs := zp509_invLoop_total (Normalise n) h2' h1
    constructor
    · intro hnone
      rw [hnone] at hs
      simp at hs
    · intro hd
      exact absurd hd hdvd

theorem zp509_IntOfUInt_of_lt {n : Nat} (h : n < 2 ^ 31) :
    IntOfUInt n = (n : Int) := by
  rw [IntOfUInt, Nat.mod_eq_of_lt (by omega), if_pos h]

/-- Claim C7, counterexample: `DivExp` converts its unsigned argument with
`int(n)`, which wraps for `n ≥ 2^31`.  `n = 2147483725` is divisible by 509
(so the claim requires a fatal failure) yet `int(n) = -2147483571 ≡ 154
(mod 509)` and the call returns normally; `n = 2147484080` is not divisible
by 509 (so the claim requires a normal return) yet
`int(n) = -2147483216 ≡ 0 (mod 509)` and the call fails. -/
theorem C7_counterexample :
    2147483725 % 509 = 0 ∧ (DivExp 0 2147483725).isSome = true ∧
    2147484080 % 509 ≠ 0 ∧ DivExp 0 2147484080 = none := by decide!

/-- Claim C7 (amended): `InverseModP n` fails exactly when
`n ≡ 0 (mod PMod)`; `DivExp E n` fails exactly when `n = 0` or
`int(n) ≡ 0 (mod PMod)`, where `int(n)` is the C++ narrowing of the
unsigned argument to the 32-bit `int` (Encodings.hpp:195).  For `n < 2^31`
the narrowing is the identity and the failure condition is the claimed
`n = 0 ∨ n ≡ 0 (mod PMod)`. -/
theorem C7_failure_conditions :
    (∀ n : Int, InverseModP n = none ↔ (509 : Int) ∣ n) ∧
    (∀ E n : Nat, DivExp E n = none ↔ n = 0 ∨ (509 : Int) ∣ IntOfUInt n) ∧
    (∀ E n : Nat, n < 2 ^ 31 →
      (DivExp E n = none ↔ n = 0 ∨ PMod ∣ n)) := by
  have hdiv : ∀ E n : Nat,
      DivExp E n = none ↔ n = 0 ∨ (509 : Int) ∣ IntOfUInt n := by
    intro E n
    rw [DivExp]
    by_cases hn0 : n = 0
    · simp [hn0]
    · rw [if_neg hn0]
      by_cases hn1 : n = 1
      · subst hn1
        rw [if_pos rfl]
        constructor
        · intro h
          exact absurd h (by simp)
        · intro h
          rcases h with h | h
          · omega
          · rw [zp509_IntOfUInt_of_lt (by norm_num)] at h
            exact absurd h (by decide)
      · rw [if_neg hn1]
        cases hinv : InverseModP (IntOfUInt n) with
        | none =>
          have hd := (zp509_InverseModP_none_iff (IntOfUInt n)).mp hinv
          simp only []
          constructor
          · intro _
            right
            exact hd
          · intro _
            trivial
        | some inv =>
          have hne : ¬ (509 : Int) ∣ IntOfUInt n := fun hd => by
            have hnone := (zp509_InverseModP_none_iff (IntOfUInt n)).mpr hd
            rw [hnone] at hinv
            cases hinv
          simp only []
          constructor
          · intro h
            cases h
          · intro h
            rcases h with h | h
            · exact absurd h hn0
            · exact absurd h hne
  refine ⟨zp509_InverseModP_none_iff, hdiv, ?_⟩
  intro E n hn
  rw [hdiv E n, zp509_IntOfUInt_of_lt hn,
    show ((509 : Int)) = ((509 : Nat) : Int) from rfl, Int.natCast_dvd_natCast]
  exact Iff.rfl

/-- Claim C7, witness: the non-wrapping equivalence at `E = 0`, `n = 2`,
discharging the hypothesis `n < 2^31`. -/
theorem C7_witness :
    DivExp 0 2 = none ↔ (2 : Nat) = 0 ∨ PMod ∣ 2 :=
  C7_failure_conditions.2.2 0 2 (by norm_num)

theorem zp509_MaxHeight_eq : MaxHeight = 24 := by decide!

/-- Roundtrip helper: every reduced rational of height strictly below
`MaxHeight` (including `0/1`, forced by `gcd a n = 1` when `a = 0`)
encodes and decodes back to itself, for both signs of the numerator. -/
theorem zp509_roundtrip :
    ∀ a : Nat, a < MaxHeight → ∀ n : Nat, n < MaxHeight →
      1 ≤ n → Nat.gcd a n = 1 → a + n < MaxHeight →
      (EncodeFrac (a : Int) n).bind GetNumerAndDenom = some ((a : Int), n) ∧
      (EncodeFrac (-(a : Int)) n).bind GetNumerAndDenom =
        some (-(a : Int), n) := by
  decide!

/-- Claim C1, counterexample: the reduced rational `23/1` has height
exactly `MaxHeight = 24`; it encodes to residue 23, but the decode loop of
`GetNumerAndDenom` only searches heights strictly below `MaxHeight`
(`height < int(MaxHeight)`), finds no candidate, and throws the exhaustion
failure. -/
theorem C1_counterexample :
    Nat.gcd 23 1 = 1 ∧ 23 + 1 = MaxHeight ∧
    EncodeFrac 23 1 = some 23 ∧ GetNumerAndDenom 23 = none := by decide!

/-- Claim C1 (amended): decoding the zero residue returns `(0, 1)`
immediately, and the encode/decode roundtrip holds for every reduced
rational of height strictly below `MaxHeight` (at height exactly
`MaxHeight` the decoder's search loop, which stops at `MaxHeight - 1`,
raises the exhaustion failure — see the counterexample). -/
theorem C1_roundtrip :
    GetNumerAndDenom 0 = some (0, 1) ∧
    EncodeFrac 0 1 = some 0 ∧
    (∀ a : Nat, a < MaxHeight → ∀ n : Nat, n < MaxHeight →
      1 ≤ n → Nat.gcd a n = 1 → a + n < MaxHeight →
      (EncodeFrac (a : Int) n).bind GetNumerAndDenom = some ((a : Int), n) ∧
      (EncodeFrac (-(a : Int)) n).bind GetNumerAndDenom =
        some (-(a : Int), n)) :=
  ⟨by decide!, by decide!, zp509_roundtrip⟩

/-- Claim C1, witness: roundtrip of `1/2` and `-1/2`. -/
theorem C1_witness :
    (EncodeFrac ((1 : Nat) : Int) 2).bind GetNumerAndDenom =
      some (((1 : Nat) : Int), 2) ∧
    (EncodeFrac (-((1 : Nat) : Int)) 2).bind GetNumerAndDenom =
      some (-((1 : Nat) : Int), 2) :=
  C1_roundtrip.2.2 1 (by decide!) 2 (by decide!) (by decide) (by decide)
    (by decide!)

/-- Claim C2, counterexample: in the `N = 9`/`PMod = 127` configuration the
reduced rationals `3/10` (height 13) and `13/1` (height 14) — both within
the hardcoded `MaxHeight = 15` — encode to the same residue 13, so the
encoding is not injective up to height 15. -/
theorem C2_counterexample :
    Zp127.EncodeFrac 3 10 = some 13 ∧ Zp127.EncodeFrac 13 1 = some 13 ∧
    Nat.gcd 3 10 = 1 ∧ Nat.gcd 13 1 = 1 ∧
    (3 : Int).natAbs + 10 ≤ 15 ∧ (13 : Int).natAbs + 1 ≤ 15 ∧
    ¬((3 : Int) = 13 ∧ (10 : Nat) = 1) := by decide!

/-- Pair check for the boundary height: a reduced rational of height
exactly `MaxHeight = 24` never shares its residue with a different reduced
rational of height up to 24 (`cond s a (-a)` ranges over both numerator
signs). -/
theorem zp509_h24_pairs :
    ∀ s s' : Bool, ∀ a : Nat, a < 25 → ∀ n : Nat, n < 25 →
      1 ≤ n → Nat.gcd a n = 1 → a + n = 24 →
      ∀ a' : Nat, a' < 25 → ∀ n' : Nat, n' < 25 →
        1 ≤ n' → Nat.gcd a' n' = 1 → a' + n' ≤ 24 →
        EncodeFrac (cond s (a : Int) (-(a : Int))) n =
          EncodeFrac (cond s' (a' : Int) (-(a' : Int))) n' →
        cond s (a : Int) (-(a : Int)) = cond s' (a' : Int) (-(a' : Int)) ∧
          n = n' := by
  decide!

/-- Roundtrip of the older `PMod = 127` decoder for all reduced rationals
with height up to 13 (the collision-free range of that configuration),
for both signs of the numerator. -/
theorem zp127_roundtrip :
    ∀ a : Nat, a < 14 → ∀ n : Nat, n < 14 →
      1 ≤ n → Nat.gcd a n = 1 → a + n ≤ 13 →
      ((Zp127.EncodeFrac (a : Int) n).isSome = true ∧
        Zp127.Numer ((Zp127.EncodeFrac (a : Int) n).getD 0).toNat =
          some (a : Int) ∧
        Zp127.Denom ((Zp127.EncodeFrac (a : Int) n).getD 0).toNat =
          some (n : Int)) ∧
      ((Zp127.EncodeFrac (-(a : Int)) n).isSome = true ∧
        Zp127.Numer ((Zp127.EncodeFrac (-(a : Int)) n).getD 0).toNat =
          some (-(a : Int)) ∧
        Zp127.Denom ((Zp127.EncodeFrac (-(a : Int)) n).getD 0).toNat =
          some (n : Int)) := by
  decide!

/-- Claim C2 (amended): the encoding is injective on reduced rationals up
to the height found by the `FindMaxHeight` collision search — `24` for the
configuration in use (`N = 7`, `PMod = 509`), and `13` (not the hardcoded
`MaxHeight = 15`) for the `N = 9`/`PMod = 127` configuration. -/
theorem C2_injectivity :
    FindMaxHeight = some 24 ∧
    (∀ (m m' : Int) (n n' : Nat),
      1 ≤ n → Nat.gcd m.natAbs n = 1 → m.natAbs + n ≤ MaxHeight →
      1 ≤ n' → Nat.gcd m'.natAbs n' = 1 → m'.natAbs + n' ≤ MaxHeight →
      EncodeFrac m n = EncodeFrac m' n' → m = m' ∧ n = n') ∧
    (∀ (m m' : Int) (n n' : Nat),
      1 ≤ n → Nat.gcd m.natAbs n = 1 → m.natAbs + n ≤ 13 →
      1 ≤ n' → Nat.gcd m'.natAbs n' = 1 → m'.natAbs + n' ≤ 13 →
      Zp127.EncodeFrac m n = Zp127.EncodeFrac m' n' → m = m' ∧ n = n') := by
  refine ⟨by decide!, ?_, ?_⟩
  · intro m m' n n' hn hg hh hn' hg' hh' henc
    rw [zp509_MaxHeight_eq] at hh hh'
    have hsplit : ∀ mm : Int,
        ∃ s : Bool, mm = cond s (mm.natAbs : Int) (-(mm.natAbs : Int)) := by
      intro mm
      rcases Int.natAbs_eq mm with h | h
      · exact ⟨true, h⟩
      · exact ⟨false, h⟩
    obtain ⟨s, hs⟩ := hsplit m
    obtain ⟨s', hs'⟩ := hsplit m'
    by_cases h24 : m.natAbs + n = 24
    · have hc := zp509_h24_pairs s s' m.natAbs (by omega) n (by omega) hn hg
        h24 m'.natAbs (by omega) n' (by omega) hn' hg' hh'
        (by rw [← hs, ← hs']; exact henc)
      exact ⟨by rw [hs, hs']; exact hc.1, hc.2⟩
    · by_cases h24' : m'.natAbs + n' = 24
      · have hc := zp509_h24_pairs s' s m'.natAbs (by omega) n' (by omega) hn'
          hg' h24' m.natAbs (by omega) n (by omega) hn hg (by omega)
          (by rw [← hs, ← hs']; exact henc.symm)
        exact ⟨by rw [hs, hs']; exact hc.1.symm, hc.2.symm⟩
      · have hr := zp509_roundtrip m.natAbs
          (by rw [zp509_MaxHeight_eq]; omega) n
          (by rw [zp509_MaxHeight_eq]; omega) hn hg
          (by rw [zp509_MaxHeight_eq]; omega)
        have hr' := zp509_roundtrip m'.natAbs
          (by rw [zp509_MaxHeight_eq]; omega) n'
          (by rw [zp509_MaxHeight_eq]; omega) hn' hg'
          (by rw [zp509_MaxHeight_eq]; omega)
        have hbind : (EncodeFrac m n).bind GetNumerAndDenom = some (m, n) := by
          cases s with
          | true => rw [show m = (m.natAbs : Int) from hs]; exact hr.1
          | false => rw [show m = -(m.natAbs : Int) from hs]; exact hr.2
        have hbind' :
            (EncodeFrac m' n').bind GetNumerAndDenom = some (m', n') := by
          cases s' with
          | true => rw [show m' = (m'.natAbs : Int) from hs']; exact hr'.1
          | false => rw [show m' = -(m'.natAbs : Int) from hs']; exact hr'.2
        obtain ⟨r, hr1, hr2⟩ := Option.bind_eq_some.mp hbind
        obtain ⟨r', hr1', hr2'⟩ := Option.bind_eq_some.mp hbind'
        rw [henc, hr1'] at hr1
        obtain rfl : r' = r := by injection hr1
        rw [hr2] at hr2'
        have hp : (m, n) = (m', n') := by injection hr2'
        exact ⟨congrArg Prod.fst hp, congrArg Prod.snd hp⟩
  · intro m m' n n' hn hg hh hn' hg' hh' henc
    have hsplit : ∀ mm : Int,
        ∃ s : Bool, mm = cond s (mm.natAbs : Int) (-(mm.natAbs : Int)) := by
      intro mm
      rcases Int.natAbs_eq mm with h | h
      · exact ⟨true, h⟩
      · exact ⟨false, h⟩
    obtain ⟨s, hs⟩ := hsplit m
    obtain ⟨s', hs'⟩ := hsplit m'
    have hr := zp127_roundtrip m.natAbs (by omega) n (by omega) hn hg hh
    have hr' := zp127_roundtrip m'.natAbs (by omega) n' (by omega) hn' hg' hh'
    have hdec : Zp127.Numer ((Zp127.EncodeFrac m n).getD 0).toNat = some m ∧
        Zp127.Denom ((Zp127.EncodeFrac m n).getD 0).toNat = some (n : Int) := by
      cases s with
      | true => rw [show m = (m.natAbs : Int) from hs]; exact ⟨hr.1.2.1, hr.1.2.2⟩
      | false => rw [show m = -(m.natAbs : Int) from hs]; exact ⟨hr.2.2.1, hr.2.2.2⟩
    have hdec' : Zp127.Numer ((Zp127.EncodeFrac m' n').getD 0).toNat = some m' ∧
        Zp127.Denom ((Zp127.EncodeFrac m' n').getD 0).toNat =
          some (n' : Int) := by
      cases s' with
      | true =>
        rw [show m' = (m'.natAbs : Int) from hs']
        exact ⟨hr'.1.2.1, hr'.1.2.2⟩
      | false =>
        rw [show m' = -(m'.natAbs : Int) from hs']
        exact ⟨hr'.2.2.1, hr'.2.2.2⟩
    rw [henc] at hdec
    have hm : some m = some m' := hdec.1.symm.trans hdec'.1
    have hnn : some (n : Int) = some (n' : Int) := hdec.2.symm.trans hdec'.2
    constructor
    · injection hm
    · have : (n : Int) = (n' : Int) := by injection hnn
      exact_mod_cast this

/-- Claim C2, witness: the 509-configuration injectivity applied at the
reduced rational `1/2` against itself. -/
theorem C2_witness : (1 : Int) = 1 ∧ (2 : Nat) = 2 :=
  C2_injectivity.2.1 1 1 2 2 (by decide) (by decide) (by decide!) (by decide)
    (by decide) (by decide!) rfl

theorem zp509_inv_some_of_range {d : Nat} (h1 : 1 ≤ d) (h2 : d < 509) :
    ∃ inv, InverseModP (d : Int) = some inv := by
  have hnd : ¬ (509 : Int) ∣ (d : Int) := by
    rw [show ((509 : Int)) = ((509 : Nat) : Int) from rfl,
      Int.natCast_dvd_natCast]
    intro hd
    have := Nat.le_of_dvd (by omega) hd
    omega
  cases hInv : InverseModP (d : Int) with
  | none => exact absurd ((zp509_InverseModP_none_iff _).mp hInv) hnd
  | some inv => exact ⟨inv, rfl⟩

/-- Totality of the bounded decode search: with any fuel dominating the
`(height, denom)` lexicographic measure, `GNDRec` returns a value — either
a matched pair or the exhaustion marker — and never hits a logic-error
branch or runs out of fuel. -/
theorem zp509_gnd_total :
    ∀ fuel height denom rep : Nat,
      1 ≤ denom → denom ≤ height → 2 ≤ height →
      (24 - height) * 24 + (height - denom) < fuel →
      (GNDRec fuel rep height denom).isSome = true := by
  intro fuel
  induction fuel with
  | zero =>
    intro height denom rep _ _ _ hlt
    omega
  | succ fuel ih =>
    intro height denom rep h1 h2 h3 hlt
    simp only [GNDRec]
    by_cases hmh : MaxHeight ≤ height
    · simp [hmh]
    · rw [if_neg hmh]
      have hm24 : height < 24 := by rw [zp509_MaxHeight_eq] at hmh; omega
      by_cases hhd : height ≤ denom
      · rw [if_pos hhd]
        exact ih (height + 1) 1 rep (by omega) (by omega) (by omega) (by omega)
      · rw [if_neg hhd]
        obtain ⟨inv, hInv⟩ := zp509_inv_some_of_range h1 (by omega)
        simp only [hInv]
        have hnp : 0 < height - denom := by omega
        have hnc : 0 < PMod - (height - denom) := by
          rw [show PMod = 509 from rfl]
          omega
        rw [if_neg (not_not_intro ⟨hnp, hnc⟩)]
        by_cases hm1 : (height - denom) * inv % PMod = rep
        · simp [hm1]
        · rw [if_neg hm1]
          by_cases hm2 : (PMod - (height - denom)) * inv % PMod = rep
          · simp [hm2]
          · rw [if_neg hm2]
            exact ih height (denom + 1) rep (by omega) (by omega) h3 (by omega)

theorem zp127_inv_some :
    ∀ d : Nat, 1 ≤ d → d < 127 →
      (Zp127.InverseModP (d : Int)).isSome = true := by
  decide!

/-- Termination of the unbounded `NumerRec` search: starting anywhere on the
search path with the fuel dominating the distance to the state
`(height, denom) = (rep + 1, 1)`, the recursion reaches a matching candidate
— at the latest the candidate `rep / 1` itself, which always matches. -/
theorem zp127_numerRec_total :
    ∀ fuel : Nat, ∀ rep height denom invDenom : Int,
      1 ≤ rep → rep ≤ 126 →
      1 ≤ denom → denom < height → 2 ≤ height → height ≤ rep + 1 →
      (height = rep + 1 → denom = 1 ∧ invDenom = 1) →
      (rep + 1 - height) * (rep + 2) + (height - denom) < (fuel : Int) →
      (Zp127.NumerRec fuel rep height denom invDenom).isSome = true := by
  intro fuel
  induction fuel with
  | zero =>
    intro rep height denom invDenom hr1 hr2 hd1 hdh hh2 hhr hup hlt
    have hnn : 0 ≤ (rep + 1 - height) * (rep + 2) :=
      mul_nonneg (by omega) (by omega)
    push_cast at hlt
    omega
  | succ fuel ih =>
    intro rep height denom invDenom hr1 hr2 hd1 hdh hh2 hhr hup hlt
    simp only [Zp127.NumerRec]
    by_cases hm1 : ((height - denom) * invDenom).tmod Zp127.IPMod = rep
    · simp [hm1]
    · have hne : height ≠ rep + 1 := by
        intro he
        obtain ⟨hdd, hvv⟩ := hup he
        apply hm1
        rw [he, hdd, hvv, show Zp127.IPMod = (127 : Int) from rfl,
          show (rep + 1 - 1) * 1 = rep by ring]
        exact Int.tmod_eq_of_lt (by omega) (by omega)
      rw [if_neg hm1]
      by_cases hm2 :
          ((Zp127.IPMod - height + denom) * invDenom).tmod Zp127.IPMod = rep
      · simp [hm2]
      · rw [if_neg hm2]
        by_cases hdh1 : denom < height - 1
        · rw [if_pos hdh1]
          obtain ⟨dn, hdn⟩ : ∃ dn : Nat, denom + 1 = (dn : Int) :=
            ⟨(denom + 1).toNat, by omega⟩
          have hsome := zp127_inv_some dn (by omega) (by omega)
          cases hInv : Zp127.InverseModP (denom + 1) with
          | none =>
            rw [← hdn, hInv] at hsome
            cases hsome
          | some inv2 =>
            simp only [hInv]
            apply ih rep height (denom + 1) inv2 hr1 hr2 (by omega) (by omega)
              hh2 hhr (fun he => absurd he hne) ?_
            push_cast at hlt ⊢
            omega
        · rw [if_neg hdh1]
          apply ih rep (height + 1) 1 1 hr1 hr2 (by omega) (by omega) (by omega)
            (by omega) (fun _ => ⟨rfl, rfl⟩) ?_
          have hring : (rep + 1 - (height + 1)) * (rep + 2) =
              (rep + 1 - height) * (rep + 2) - (rep + 2) := by ring
          push_cast at hlt ⊢
          rw [hring]
          omega

/-- Termination of the unbounded `DenomRec` search, as for `NumerRec`. -/
theorem zp127_denomRec_total :
    ∀ fuel : Nat, ∀ rep height denom invDenom : Int,
      1 ≤ rep → rep ≤ 126 →
      1 ≤ denom → denom < height → 2 ≤ height → height ≤ rep + 1 →
      (height = rep + 1 → denom = 1 ∧ invDenom = 1) →
      (rep + 1 - height) * (rep + 2) + (height - denom) < (fuel : Int) →
      (Zp127.DenomRec fuel rep height denom invDenom).isSome = true := by
  intro fuel
  induction fuel with
  | zero =>
    intro rep height denom invDenom hr1 hr2 hd1 hdh hh2 hhr hup hlt
    have hnn : 0 ≤ (rep + 1 - height) * (rep + 2) :=
      mul_nonneg (by omega) (by omega)
    push_cast at hlt
    omega
  | succ fuel ih =>
    intro rep height denom invDenom hr1 hr2 hd1 hdh hh2 hhr hup hlt
    simp only [Zp127.DenomRec]
    by_cases hm : ((height - denom) * invDenom).tmod Zp127.IPMod = rep ∨
        ((Zp127.IPMod - height + denom) * invDenom).tmod Zp127.IPMod = rep
    · simp [hm]
    · have hne : height ≠ rep + 1 := by
        intro he
        obtain ⟨hdd, hvv⟩ := hup he
        apply hm
        left
        rw [he, hdd, hvv, show Zp127.IPMod = (127 : Int) from rfl,
          show (rep + 1 - 1) * 1 = rep by ring]
        exact Int.tmod_eq_of_lt (by omega) (by omega)
      rw [if_neg hm]
      by_cases hdh1 : denom < height - 1
      · rw [if_pos hdh1]
        obtain ⟨dn, hdn⟩ : ∃ dn : Nat, denom + 1 = (dn : Int) :=
          ⟨(denom + 1).toNat, by omega⟩
        have hsome := zp127_inv_some dn (by omega) (by omega)
        cases hInv : Zp127.InverseModP (denom + 1) with
        | none =>
          rw [← hdn, hInv] at hsome
          cases hsome
        | some inv2 =>
          simp only [hInv]
          apply ih rep height (denom + 1) inv2 hr1 hr2 (by omega) (by omega)
            hh2 hhr (fun he => absurd he hne) ?_
          push_cast at hlt ⊢
          omega
      · rw [if_neg hdh1]
        apply ih rep (height + 1) 1 1 hr1 hr2 (by omega) (by omega) (by omega)
          (by omega) (fun _ => ⟨rfl, rfl⟩) ?_
        have hring : (rep + 1 - (height + 1)) * (rep + 2) =
            (rep + 1 - height) * (rep + 2) - (rep + 2) := by ring
        push_cast at hlt ⊢
        rw [hring]
        omega

/-- Claim C10: decoding terminates on every well-formed residue.  In the
`N = 9`/`PMod = 127` configuration, the unbounded searches of `Numer` and
`Denom` reach a matching candidate within the fuel `(rep + 2)^2` that
dominates the enumeration up to the always-matching candidate `rep / 1` at
height `rep + 1`; and the bounded search of `GetNumerAndDenom` always
returns a pair or the exhaustion marker (never a logic error), with
`GetNumerAndDenom 0 = (0, 1)` immediately. -/
theorem C10_decode_termination :
    (∀ rep : Nat, rep < Zp127.PMod →
      (Zp127.Numer rep).isSome = true ∧ (Zp127.Denom rep).isSome = true) ∧
    (∀ rep : Nat, rep < PMod → 1 ≤ rep →
      (GNDRec DecodeFuel rep 2 1).isSome = true) ∧
    GetNumerAndDenom 0 = some (0, 1) := by
  refine ⟨?_, ?_, by decide⟩
  · intro rep hrep
    rw [show Zp127.PMod = 127 from rfl] at hrep
    by_cases h0 : rep = 0
    · subst h0
      exact ⟨by decide, by decide⟩
    · have hr1 : (1 : Int) ≤ (rep : Int) := by omega
      have hr2 : (rep : Int) ≤ 126 := by omega
      have hmeas : ((rep : Int) + 1 - 2) * ((rep : Int) + 2) + (2 - 1) <
          (((rep + 2) * (rep + 2) : Nat) : Int) := by
        have hring : ((rep : Int) + 2) * ((rep : Int) + 2) -
            ((rep : Int) + 1 - 2) * ((rep : Int) + 2) =
            3 * ((rep : Int) + 2) := by ring
        push_cast
        omega
      constructor
      · rw [Zp127.Numer, if_neg h0]
        exact zp127_numerRec_total _ (rep : Int) 2 1 1 hr1 hr2 (by omega)
          (by omega) (by omega) (by omega)
          (fun he => ⟨rfl, rfl⟩) hmeas
      · rw [Zp127.Denom, if_neg h0]
        exact zp127_denomRec_total _ (rep : Int) 2 1 1 hr1 hr2 (by omega)
          (by omega) (by omega) (by omega)
          (fun he => ⟨rfl, rfl⟩) hmeas
  · intro rep hrep h1
    apply zp509_gnd_total DecodeFuel 2 1 rep (by omega) (by omega) (by omega)
    rw [show DecodeFuel = 518162 from rfl]
    omega

/-- Claim C10, witness: termination at the concrete residue 5 in both
configurations. -/
theorem C10_witness :
    ((Zp127.Numer 5).isSome = true ∧ (Zp127.Denom 5).isSome = true) ∧
    (GNDRec DecodeFuel 5 2 1).isSome = true :=
  ⟨C10_decode_termination.1 5 (by decide), C10_decode_termination.2.1 5
    (by decide) (by decide)⟩

/-- Claim C8: the `FracPower` identities over a real representation type
whose `SqRt`/`CbRt`/`Pow` primitives are abstract parameters (no property
of them is needed — the reductions are purely structural):
`FracPower 1 2` is `SqRt`, `FracPower 1 3` is `CbRt`, and `FracPower 2 4`
collapses to `FracPower 1 2` after gcd normalisation. -/
theorem C8_fracpow_identities (R : Type) [LinearOrderedField R]
    (sq cb : R → R) (pw : R → R → R) :
    (∀ x : R, 0 ≤ x → Frac.FracPower sq cb pw 1 2 x = sq x) ∧
    (∀ x : R, Frac.FracPower sq cb pw 1 3 x = cb x) ∧
    (∀ x : R, Frac.FracPower sq cb pw 2 4 x = Frac.FracPower sq cb pw 1 2 x) := by
  have hnn2 : Frac.NormaliseNumer 1 ((2 : Nat) : Int) = 1 := by decide
  have hnd2 : (Frac.NormaliseDenom 1 ((2 : Nat) : Int)).toNat = 2 := by decide
  have hnn3 : Frac.NormaliseNumer 1 ((3 : Nat) : Int) = 1 := by decide
  have hnd3 : (Frac.NormaliseDenom 1 ((3 : Nat) : Int)).toNat = 3 := by decide
  have hnn4 : Frac.NormaliseNumer 2 ((4 : Nat) : Int) = 1 := by decide
  have hnd4 : (Frac.NormaliseDenom 2 ((4 : Nat) : Int)).toNat = 2 := by decide
  have hsq : ∀ x : R, Frac.SqRtPower sq pw 1 2 x = sq x := by
    intro x
    rw [Frac.SqRtPower]
    norm_num
    rw [Frac.SqRtPower]
    norm_num
    rw [Frac.IntPower]
    norm_num
    rw [Frac.NatPower]
    norm_num
  refine ⟨?_, ?_, ?_⟩
  · intro x _
    rw [Frac.FracPower, hnn2, hnd2, Frac.CbRtPower]
    norm_num
    exact hsq x
  · intro x
    rw [Frac.FracPower, hnn3, hnd3, Frac.CbRtPower]
    norm_num
    rw [Frac.CbRtPower]
    norm_num
    rw [Frac.SqRtPower]
    norm_num
    rw [Frac.IntPower]
    norm_num
    rw [Frac.NatPower]
    norm_num
  · intro x
    rw [Frac.FracPower, hnn4, hnd4, Frac.FracPower, hnn2, hnd2]

/-- Claim C8, witness: the identities instantiated at `R = ℚ` with the
identity maps as root primitives, at `x = 1` (discharging `0 ≤ x`). -/
theorem C8_witness :
    Frac.FracPower (fun q : ℚ => q) (fun q : ℚ => q) (fun a _ => a) 1 2
        (1 : ℚ) =
      (fun q : ℚ => q) (1 : ℚ) ∧
    Frac.FracPower (fun q : ℚ => q) (fun q : ℚ => q) (fun a _ => a) 1 3
        (1 : ℚ) =
      (fun q : ℚ => q) (1 : ℚ) ∧
    Frac.FracPower (fun q : ℚ => q) (fun q : ℚ => q) (fun a _ => a) 2 4
        (1 : ℚ) =
      Frac.FracPower (fun q : ℚ => q) (fun q : ℚ => q) (fun a _ => a) 1 2
        (1 : ℚ) :=
  ⟨(C8_fracpow_identities ℚ (fun q => q) (fun q => q) (fun a _ => a)).1 1
      (by norm_num),
   (C8_fracpow_identities ℚ (fun q => q) (fun q => q) (fun a _ => a)).2.1 1,
   (C8_fracpow_identities ℚ (fun q => q) (fun q => q) (fun a _ => a)).2.2 1⟩

end DimTypes
